import Mathlib

/-!
Verification of the sidecar post-parsing and sidecar-generation pipeline.

This development shallowly embeds the Rust sources:
  * `src/parser.rs` — the streaming XML-event parser building `Post` records;
  * `src/counter.rs` — the tag counter and the `TagCount` ordering;
  * `src/lib.rs` — tag-mapping loading, the media-file inventory filter and
    the missing-media reporter.

XML events are modelled as a list of `Except` values (the `xml::reader`
iterator yields `Result<XmlEvent, Error>`); well-formed documents are
produced by a generator (`docEvents`) from structured post descriptions.
Strings are Lean `String`s; the byte-oriented operations of the source
(`rsplitn(2, extension-dot)`, `Path::extension`) are modelled on the
character list of the string.
-/

namespace Sidecar

/-- Media type of a post, from `lib.rs` (`enum MediaType`). -/
inductive MediaType where
  | Text
  | Photo
  | Other
deriving Repr, DecidableEq

/-- A parsed post record.  Fields follow the data model of the repository:
`id`, `url`, `media_type`, `tags` are the fields of `Post` in `lib.rs`;
`image_count` and `extension` are the fields used by the parser in
`parser.rs` (its contemporaneous record declaration is a superseded
iteration; the union of both field sets is the full data model). -/
structure Post where
  id : String
  url : String
  media_type : MediaType
  tags : List String
  image_count : Nat
  extension : Option String
deriving Repr, DecidableEq

/-- Default of `Post` (`impl Default for Post`) in `lib.rs` (empty id/url, `Text`, no tags),
extended with the zero/absent defaults of the parser-side fields. -/
def defaultPost : Post :=
  { id := "", url := "", media_type := .Text, tags := [],
    image_count := 0, extension := none }

instance : Inhabited Post := ⟨defaultPost⟩

instance {ε α : Type} [DecidableEq ε] [DecidableEq α] : DecidableEq (Except ε α) := fun x y =>
  match x, y with
  | .ok a, .ok b =>
    if h : a = b then .isTrue (by rw [h]) else .isFalse (fun hh => h (Except.ok.inj hh))
  | .error e, .error f =>
    if h : e = f then .isTrue (by rw [h]) else .isFalse (fun hh => h (Except.error.inj hh))
  | .ok _, .error _ => .isFalse (fun hh => Except.noConfusion hh)
  | .error _, .ok _ => .isFalse (fun hh => Except.noConfusion hh)

/-- Split a character list at its final dot, modelling
`chars.rsplitn(2, dot)` from `parser.rs`: `some (before, after)` when the
list contains a dot (`after` is everything past the final dot, `before`
everything in front of it), `none` when it contains no dot. -/
def splitLastDot : List Char → Option (List Char × List Char)
  | [] => none
  | c :: cs =>
    match splitLastDot cs with
    | some (b, a) => some (c :: b, a)
    | none => if c = '.' then some ([], cs) else none

/-- The XML events relevant to the parser; every event shape the Rust
`match` ignores (`_ => {}`) is collapsed into `otherEvent`. -/
inductive XmlEvent where
  | startElement (name : String) (attrs : List (String × String))
  | endElement (name : String)
  | characters (chars : String)
  | otherEvent
deriving Repr, DecidableEq

/-- The `XmlTag` state enum of `parser.rs` ("last opened element"). -/
inductive XmlTag where
  | Post
  | Tag
  | Photo
  | PhotoUrl
  | Other
deriving Repr, DecidableEq

/-- Errors surfaced by `parse_posts`: a stream error forwarded from the
event reader, or the `InvalidData` error raised for a `post` element
missing its `id` attribute. -/
inductive ParseError where
  | streamError (msg : String)
  | missingAttribute
deriving Repr, DecidableEq

/-- The mutable state of the parsing loop in `parser.rs`: the accumulated
`posts` vector, the working `post` record and `last_opened_tag`. -/
structure ParserState where
  posts : List Post
  post : Post
  last_opened_tag : XmlTag
deriving Repr, DecidableEq

/-- Look up the raw text of a tag in the tag-mapping table
(`HashMap<String, Option<String>>` in `lib.rs`, modelled as an association
list): `some (some v)` renames, `some none` drops, `none` means no entry. -/
def lookupMapping (m : List (String × Option String)) (raw : String) :
    Option (Option String) :=
  (m.find? (fun p => p.1 = raw)).map (fun p => p.2)

/-- One step of the parsing loop of `src/parser.rs`, exactly as written
there: `post` start reads the `id` attribute or fails; `photo` start
increments `image_count`; characters under `tag` append the raw text;
characters under `photo-url` set `extension` from the final dot only when
it is still unset; `post` end pushes the working record **only when its
`extension` is set** and resets it. -/
def processEvent (st : ParserState) (item : Except String XmlEvent) :
    Except ParseError ParserState :=
  match item with
  | .error e => .error (.streamError e)
  | .ok (.startElement name attrs) =>
    if name = "post" then
      match attrs.find? (fun a => a.1 = "id") with
      | some a =>
        .ok { st with last_opened_tag := .Post, post := { st.post with id := a.2 } }
      | none => .error .missingAttribute
    else if name = "tag" then
      .ok { st with last_opened_tag := .Tag }
    else if name = "photo-url" then
      .ok { st with last_opened_tag := .PhotoUrl }
    else if name = "photo" then
      .ok { st with last_opened_tag := .Photo,
                    post := { st.post with image_count := st.post.image_count + 1 } }
    else
      .ok { st with last_opened_tag := .Other }
  | .ok (.endElement name) =>
    if name = "post" then
      .ok { st with
              posts := if st.post.extension.isSome then st.posts ++ [st.post] else st.posts,
              post := defaultPost }
    else
      .ok st
  | .ok (.characters chars) =>
    match st.last_opened_tag with
    | .Tag => .ok { st with post := { st.post with tags := st.post.tags ++ [chars] } }
    | .PhotoUrl =>
      if st.post.extension.isNone then
        match splitLastDot chars.data with
        | some (_, a) => .ok { st with post := { st.post with extension := some (String.mk a) } }
        | none => .ok st
      else
        .ok st
    | _ => .ok st
  | .ok .otherEvent => .ok st

/-- Modelled from the spec: one step of the final parser variant, whose
`parser.rs` is missing from the sources (`lib.rs` calls a two-argument
`parser::parse_posts(posts_file, &tag_mappings)` and declares `Post` with
a `media_type`, but the `parser.rs` present is the superseded one-argument
iteration).  Differences from `processEvent`, following the spec: a
`photo` start also marks the record `Photo`; tag text goes through the
tag-mapping table (rename / drop / pass-through); `post` end always seals
the record (keep-all-with-id variant). -/
def processEventSpec (m : List (String × Option String)) (st : ParserState)
    (item : Except String XmlEvent) : Except ParseError ParserState :=
  match item with
  | .error e => .error (.streamError e)
  | .ok (.startElement name attrs) =>
    if name = "post" then
      match attrs.find? (fun a => a.1 = "id") with
      | some a =>
        .ok { st with last_opened_tag := .Post, post := { st.post with id := a.2 } }
      | none => .error .missingAttribute
    else if name = "tag" then
      .ok { st with last_opened_tag := .Tag }
    else if name = "photo-url" then
      .ok { st with last_opened_tag := .PhotoUrl }
    else if name = "photo" then
      .ok { st with last_opened_tag := .Photo,
                    post := { st.post with media_type := .Photo,
                                           image_count := st.post.image_count + 1 } }
    else
      .ok { st with last_opened_tag := .Other }
  | .ok (.endElement name) =>
    if name = "post" then
      .ok { st with posts := st.posts ++ [st.post], post := defaultPost }
    else
      .ok st
  | .ok (.characters chars) =>
    match st.last_opened_tag with
    | .Tag =>
      match lookupMapping m chars with
      | some (some v) => .ok { st with post := { st.post with tags := st.post.tags ++ [v] } }
      | some none => .ok st
      | none => .ok { st with post := { st.post with tags := st.post.tags ++ [chars] } }
    | .PhotoUrl =>
      if st.post.extension.isNone then
        match splitLastDot chars.data with
        | some (_, a) => .ok { st with post := { st.post with extension := some (String.mk a) } }
        | none => .ok st
      else
        .ok st
    | _ => .ok st
  | .ok .otherEvent => .ok st

/-- Run a step function over the event list, aborting at the first error
(the `for event in parser { ... return Err(e) ... }` loop shape). -/
def runEvents (step : ParserState → Except String XmlEvent → Except ParseError ParserState) :
    ParserState → List (Except String XmlEvent) → Except ParseError ParserState
  | st, [] => .ok st
  | st, e :: rest =>
    match step st e with
    | .error err => .error err
    | .ok st2 => runEvents step st2 rest

/-- The initial state of the loop in `parse_posts`. -/
def initState : ParserState := { posts := [], post := defaultPost, last_opened_tag := .Other }

/-- Function `parse_posts` of `src/parser.rs`, over the event stream. -/
def parse_posts (events : List (Except String XmlEvent)) : Except ParseError (List Post) :=
  match runEvents processEvent initState events with
  | .error e => .error e
  | .ok st => .ok st.posts

/-- Modelled from the spec: the final two-argument `parse_posts` called by
`lib.rs`, using `processEventSpec`. -/
def parse_posts_spec (m : List (String × Option String))
    (events : List (Except String XmlEvent)) : Except ParseError (List Post) :=
  match runEvents (processEventSpec m) initState events with
  | .error e => .error e
  | .ok st => .ok st.posts

/-- One item of the body of a post element in a well-formed document: a `tag`
element with text, a `photo` element, a `photo-url` element with text, or
an unrecognized element with text (which the parser ignores). -/
inductive BodyItem where
  | tagEl (text : String)
  | photoEl
  | photoUrlEl (text : String)
  | otherEl (text : String)
deriving Repr, DecidableEq

/-- A structured description of one `post` element of a well-formed
document: its `id` attribute (`none` models a `post` element lacking the
attribute) and its body items in document order. -/
structure PostSrc where
  id : Option String
  body : List BodyItem
deriving Repr, DecidableEq

/-- Events emitted for one body item. -/
def itemEvents : BodyItem → List (Except String XmlEvent)
  | .tagEl t =>
    [.ok (.startElement "tag" []), .ok (.characters t), .ok (.endElement "tag")]
  | .photoEl =>
    [.ok (.startElement "photo" []), .ok (.endElement "photo")]
  | .photoUrlEl t =>
    [.ok (.startElement "photo-url" []), .ok (.characters t), .ok (.endElement "photo-url")]
  | .otherEl t =>
    [.ok (.startElement "other" []), .ok (.characters t), .ok (.endElement "other")]

/-- Events emitted for one `post` element. -/
def postEvents (p : PostSrc) : List (Except String XmlEvent) :=
  .ok (.startElement "post" (match p.id with | some i => [("id", i)] | none => []))
    :: (p.body.flatMap itemEvents ++ [.ok (.endElement "post")])

/-- Events of a whole well-formed document: the concatenation of its post
elements, one after another. -/
def docEvents (doc : List PostSrc) : List (Except String XmlEvent) :=
  doc.flatMap postEvents

/-- The effect of one body item on the working record, per `processEvent`. -/
def applyItem (post : Post) : BodyItem → Post
  | .tagEl t => { post with tags := post.tags ++ [t] }
  | .photoEl => { post with image_count := post.image_count + 1 }
  | .photoUrlEl u =>
    if post.extension.isNone then
      match splitLastDot u.data with
      | some (_, a) => { post with extension := some (String.mk a) }
      | none => post
    else
      post
  | .otherEl _ => post

/-- The record a post element seals to under `processEvent`. -/
def sealedOf (p : PostSrc) : Post :=
  p.body.foldl applyItem { defaultPost with id := p.id.getD "" }

/-- The effect of one body item on the working record, per
`processEventSpec`. -/
def applyItemSpec (m : List (String × Option String)) (post : Post) : BodyItem → Post
  | .tagEl t =>
    match lookupMapping m t with
    | some (some v) => { post with tags := post.tags ++ [v] }
    | some none => post
    | none => { post with tags := post.tags ++ [t] }
  | .photoEl => { post with media_type := .Photo, image_count := post.image_count + 1 }
  | .photoUrlEl u =>
    if post.extension.isNone then
      match splitLastDot u.data with
      | some (_, a) => { post with extension := some (String.mk a) }
      | none => post
    else
      post
  | .otherEl _ => post

/-- The record a post element seals to under `processEventSpec`. -/
def sealedOfSpec (m : List (String × Option String)) (p : PostSrc) : Post :=
  p.body.foldl (applyItemSpec m) { defaultPost with id := p.id.getD "" }

/-- A `(tag, count)` pair, from `counter.rs`. -/
structure TagCount where
  tag : String
  count : Nat
deriving Repr, DecidableEq

/-- Ordering of `TagCount` (`impl Ord`) in `counter.rs`: compare the counts the other
way round (descending), break ties by the tags (ascending). -/
def TagCount.cmp (a b : TagCount) : Ordering :=
  match compare b.count a.count with
  | .gt => .gt
  | .lt => .lt
  | .eq => compare a.tag b.tag

/-- The counter map of `counter.rs` (`HashMap<&str, u32>`), modelled as an
association list in insertion order; `increment` is
`entry(key).and_modify(increment-by-one).or_insert(1)`. -/
abbrev Counter := List (String × Nat)

def Counter.increment (c : Counter) (key : String) : Counter :=
  if (List.find? (fun p => p.1 = key) c).isSome then
    List.map (fun p => if p.1 = key then (p.1, p.2 + 1) else p) c
  else
    c ++ [(key, 1)]

def Counter.get (c : Counter) (key : String) : Option Nat :=
  (List.find? (fun p => p.1 = key) c).map (fun p => p.2)

/-- Function `count_tags` of `lib.rs`: increment the counter once per tag of every
post, then turn the map into `TagCount` pairs. -/
def count_tags (posts : List Post) : List TagCount :=
  (posts.foldl (fun c p => p.tags.foldl Counter.increment c) ([] : Counter)).map
    (fun p => ⟨p.1, p.2⟩)

/-- Stable insertion into a sorted list: the new element passes over
exactly the elements strictly greater than it, so elements comparing
equal keep their original relative order. -/
def insertSorted (a : TagCount) : List TagCount → List TagCount
  | [] => [a]
  | b :: rest =>
    if TagCount.cmp a b = .lt then a :: b :: rest else b :: insertSorted a rest

/-- The `tag_counts.sort()` call of `lib.rs` (`run`, analyze arm): a stable sort by
the `TagCount` ordering, modelled as a stable insertion sort. -/
def sortTagCounts (l : List TagCount) : List TagCount :=
  l.foldl (fun s a => insertSorted a s) []

/-- One entry of the media-file inventory: its file name (final path
component) and whether the path is a regular file at scan time. -/
structure DirEntry where
  file_name : String
  is_file : Bool
deriving Repr, DecidableEq

/-- Extension (`Path::extension`) of the path of the entry: the portion of the file name
after its final dot; `none` when there is no dot, or when the only dot is
the leading character (hidden files). -/
def pathExtension (name : String) : Option String :=
  match splitLastDot name.data with
  | none => none
  | some (b, a) => if b = [] then none else some (String.mk a)

/-- Function `build_file_cache` of `lib.rs`: erroneous directory entries are
skipped (`filter_map(ok)`), then only regular files whose extension is
absent or differs from `txt` are kept. -/
def build_file_cache (entries : List (Option DirEntry)) : List DirEntry :=
  (entries.filterMap id).filter
    (fun e => e.is_file && (match pathExtension e.file_name with
                            | none => true
                            | some ext => ext ≠ "txt"))

/-- The report line printed by `report_missing_media` in `lib.rs`. -/
def missingLine (p : Post) : String :=
  "No media file(s) found for post ID " ++ p.id ++ ", download them manually from " ++ p.url

/-- The inner loop of `report_missing_media`: scan the inventory for an
entry whose file name starts with the post id. -/
def anyMatch : List DirEntry → String → Bool
  | [], _ => false
  | e :: rest, id => if e.file_name.startsWith id then true else anyMatch rest id

/-- Function `report_missing_media` of `lib.rs`, with the `println!` calls
collected into the returned list of lines (the function touches no
files). -/
def report_missing_media : List Post → List DirEntry → List String
  | [], _ => []
  | p :: rest, files =>
    let found := anyMatch files p.id
    (if found = false ∧ p.media_type = .Photo then [missingLine p] else [])
      ++ report_missing_media rest files

/-- The error message of the `bail!` in `load_tag_mappings`. -/
def mappingFormatError (mapping_file : String) : String :=
  "format error in tags remapping file " ++ mapping_file

/-- Insert into the mapping table (`HashMap::insert`: replaces the value
of an existing key, appends a new key). -/
def insertMapping (m : List (String × Option String)) (k : String) (v : Option String) :
    List (String × Option String) :=
  if (List.find? (fun p => p.1 = k) m).isSome then
    List.map (fun p => if p.1 = k then (k, v) else p) m
  else
    m ++ [(k, v)]

/-- Splitting (`str::split`) at commas, modelled on the character list: one field per
comma-free run, with empty fields kept (so a line with no comma yields one
field and `a,,b` yields three). -/
def splitCommaAux : List Char → List Char → List String
  | [], acc => [String.mk acc.reverse]
  | c :: cs, acc =>
    if c = ',' then String.mk acc.reverse :: splitCommaAux cs []
    else splitCommaAux cs (c :: acc)

def splitComma (s : String) : List String :=
  splitCommaAux s.data []

/-- Trimming (`str::trim`), modelled on the character list: drop whitespace from both
ends. -/
def trimString (s : String) : String :=
  String.mk (((s.data.dropWhile fun c => c.isWhitespace).reverse.dropWhile
    (fun c => c.isWhitespace)).reverse)

/-- The line loop of `load_tag_mappings`: split each line on commas, trim
the parts, fail unless there are exactly two, map an empty destination to
`none` (drop), and skip lines whose source is empty. -/
def loadMappingLines (mapping_file : String) :
    List String → List (String × Option String) →
    Except String (List (String × Option String))
  | [], m => .ok m
  | l :: rest, m =>
    let parts := (splitComma l).map trimString
    if parts.length ≠ 2 then
      .error (mappingFormatError mapping_file)
    else
      let source_tag := parts.getD 0 ""
      let dest_tag := parts.getD 1 ""
      let dest := if dest_tag = "" then none else some dest_tag
      loadMappingLines mapping_file rest
        (if source_tag = "" then m else insertMapping m source_tag dest)

/-- Function `load_tag_mappings` of `lib.rs`, over the lines of the mapping file. -/
def load_tag_mappings (mapping_file : String) (lines : List String) :
    Except String (List (String × Option String)) :=
  loadMappingLines mapping_file lines []

/-- The `last_opened_tag` value after the events of one body item. -/
def tagAfter : BodyItem → XmlTag
  | .tagEl _ => .Tag
  | .photoEl => .Photo
  | .photoUrlEl _ => .PhotoUrl
  | .otherEl _ => .Other

/-- The `last_opened_tag` value after a run of body items. -/
def bodyLast (body : List BodyItem) (t : XmlTag) : XmlTag :=
  body.foldl (fun _ i => tagAfter i) t

/-- The `last_opened_tag` value after a run of post elements. -/
def docLast (doc : List PostSrc) (t : XmlTag) : XmlTag :=
  doc.foldl (fun _ p => bodyLast p.body .Post) t

theorem splitLastDot_eq_none_iff (l : List Char) : splitLastDot l = none ↔ '.' ∉ l := by
  induction l with
  | nil => simp [splitLastDot]
  | cons c cs ih =>
    cases h : splitLastDot cs with
    | some pair =>
      have hcs : '.' ∈ cs := by
        by_contra hn
        rw [← ih] at hn
        rw [h] at hn
        exact Option.noConfusion hn
      simp [splitLastDot, h, List.mem_cons, hcs]
    | none =>
      have hcs : '.' ∉ cs := ih.mp h
      by_cases hc : c = '.'
      · simp [splitLastDot, h, hc]
      · simp [splitLastDot, h, hc, List.mem_cons, hcs, Ne.symm hc]

theorem splitLastDot_eq_some (l : List Char) :
    ∀ b a, splitLastDot l = some (b, a) → l = b ++ '.' :: a ∧ '.' ∉ a := by
  induction l with
  | nil => intro b a h; exact Option.noConfusion h
  | cons c cs ih =>
    intro b a h
    cases hcs : splitLastDot cs with
    | some pair =>
      obtain ⟨b2, a2⟩ := pair
      rw [splitLastDot, hcs] at h
      obtain ⟨hb, ha⟩ := Prod.mk.injEq .. ▸ Option.some.inj h
      obtain ⟨hl, hna⟩ := ih b2 a2 hcs
      subst hb ha
      exact ⟨by rw [hl]; rfl, hna⟩
    | none =>
      rw [splitLastDot, hcs] at h
      by_cases hc : c = '.'
      · rw [if_pos hc] at h
        obtain ⟨hb, ha⟩ := Prod.mk.injEq .. ▸ Option.some.inj h
        subst hb ha hc
        exact ⟨rfl, (splitLastDot_eq_none_iff cs).mp hcs⟩
      · rw [if_neg hc] at h
        exact Option.noConfusion h

theorem splitLastDot_append_dot (l : List Char) : splitLastDot (l ++ ['.']) = some (l, []) := by
  induction l with
  | nil => simp [splitLastDot]
  | cons c cs ih => simp [splitLastDot, ih]

theorem runEvents_append
    (step : ParserState → Except String XmlEvent → Except ParseError ParserState)
    (st : ParserState) (xs ys : List (Except String XmlEvent)) :
    runEvents step st (xs ++ ys) =
      match runEvents step st xs with
      | .error e => .error e
      | .ok st2 => runEvents step st2 ys := by
  induction xs generalizing st with
  | nil => simp [runEvents]
  | cons e rest ih =>
    simp only [List.cons_append, runEvents]
    cases step st e with
    | error err => rfl
    | ok st2 => exact ih st2

theorem runEvents_item (ps : List Post) (cur : Post) (t : XmlTag) (i : BodyItem) :
    runEvents processEvent ⟨ps, cur, t⟩ (itemEvents i) =
      .ok ⟨ps, applyItem cur i, tagAfter i⟩ := by
  cases i with
  | tagEl s =>
    simp [itemEvents, runEvents, processEvent, applyItem, tagAfter]
  | photoEl =>
    simp [itemEvents, runEvents, processEvent, applyItem, tagAfter]
  | photoUrlEl u =>
    cases hext : cur.extension with
    | none =>
      cases hs : splitLastDot u.data with
      | none =>
        simp [itemEvents, runEvents, processEvent, applyItem, tagAfter, hext, hs]
      | some pair =>
        obtain ⟨b, a⟩ := pair
        simp [itemEvents, runEvents, processEvent, applyItem, tagAfter, hext, hs]
    | some e =>
      simp [itemEvents, runEvents, processEvent, applyItem, tagAfter, hext]
  | otherEl s =>
    simp [itemEvents, runEvents, processEvent, applyItem, tagAfter]

theorem runEvents_item_spec (m : List (String × Option String))
    (ps : List Post) (cur : Post) (t : XmlTag) (i : BodyItem) :
    runEvents (processEventSpec m) ⟨ps, cur, t⟩ (itemEvents i) =
      .ok ⟨ps, applyItemSpec m cur i, tagAfter i⟩ := by
  cases i with
  | tagEl s =>
    cases hm : lookupMapping m s with
    | none =>
      simp [itemEvents, runEvents, processEventSpec, applyItemSpec, tagAfter, hm]
    | some v =>
      cases v with
      | none =>
        simp [itemEvents, runEvents, processEventSpec, applyItemSpec, tagAfter, hm]
      | some w =>
        simp [itemEvents, runEvents, processEventSpec, applyItemSpec, tagAfter, hm]
  | photoEl =>
    simp [itemEvents, runEvents, processEventSpec, applyItemSpec, tagAfter]
  | photoUrlEl u =>
    cases hext : cur.extension with
    | none =>
      cases hs : splitLastDot u.data with
      | none =>
        simp [itemEvents, runEvents, processEventSpec, applyItemSpec, tagAfter, hext, hs]
      | some pair =>
        obtain ⟨b, a⟩ := pair
        simp [itemEvents, runEvents, processEventSpec, applyItemSpec, tagAfter, hext, hs]
    | some e =>
      simp [itemEvents, runEvents, processEventSpec, applyItemSpec, tagAfter, hext]
  | otherEl s =>
    simp [itemEvents, runEvents, processEventSpec, applyItemSpec, tagAfter]

theorem runEvents_body (body : List BodyItem) :
    ∀ ps cur t, runEvents processEvent ⟨ps, cur, t⟩ (body.flatMap itemEvents) =
      .ok ⟨ps, body.foldl applyItem cur, bodyLast body t⟩ := by
  induction body with
  | nil => intro ps cur t; simp [runEvents, bodyLast]
  | cons i rest ih =>
    intro ps cur t
    rw [List.flatMap_cons, runEvents_append, runEvents_item]
    simp only [List.foldl_cons]
    rw [ih]
    simp [bodyLast]

theorem runEvents_body_spec (m : List (String × Option String)) (body : List BodyItem) :
    ∀ ps cur t, runEvents (processEventSpec m) ⟨ps, cur, t⟩ (body.flatMap itemEvents) =
      .ok ⟨ps, body.foldl (applyItemSpec m) cur, bodyLast body t⟩ := by
  induction body with
  | nil => intro ps cur t; simp [runEvents, bodyLast]
  | cons i rest ih =>
    intro ps cur t
    rw [List.flatMap_cons, runEvents_append, runEvents_item_spec]
    simp only [List.foldl_cons]
    rw [ih]
    simp [bodyLast]


theorem runEvents_append_ok
    (step : ParserState → Except String XmlEvent → Except ParseError ParserState)
    (st st1 : ParserState) (xs ys : List (Except String XmlEvent))
    (h : runEvents step st xs = .ok st1) :
    runEvents step st (xs ++ ys) = runEvents step st1 ys := by
  rw [runEvents_append, h]

theorem runEvents_append_error
    (step : ParserState → Except String XmlEvent → Except ParseError ParserState)
    (st : ParserState) (e : ParseError) (xs ys : List (Except String XmlEvent))
    (h : runEvents step st xs = .error e) :
    runEvents step st (xs ++ ys) = .error e := by
  rw [runEvents_append, h]

theorem runEvents_post (p : PostSrc) (i : String) (hid : p.id = some i)
    (ps : List Post) (t : XmlTag) :
    runEvents processEvent ⟨ps, defaultPost, t⟩ (postEvents p) =
      .ok ⟨ps ++ (if (sealedOf p).extension.isSome then [sealedOf p] else []),
           defaultPost, bodyLast p.body .Post⟩ := by
  have h2 : runEvents processEvent ⟨ps, defaultPost, t⟩ (postEvents p) =
      runEvents processEvent ⟨ps, { defaultPost with id := i }, .Post⟩
        (p.body.flatMap itemEvents ++ [.ok (.endElement "post")]) := by
    unfold postEvents
    rw [hid]
    simp [runEvents, processEvent]
  rw [h2, runEvents_append_ok _ _ _ _ _ (runEvents_body p.body ps _ _)]
  have hseal : p.body.foldl applyItem { defaultPost with id := i } = sealedOf p := by
    unfold sealedOf
    rw [hid]
    rfl
  rw [hseal]
  simp only [runEvents, processEvent]
  cases hx : (sealedOf p).extension <;> simp [hx, Option.isSome]

theorem runEvents_post_spec (m : List (String × Option String)) (p : PostSrc) (i : String)
    (hid : p.id = some i) (ps : List Post) (t : XmlTag) :
    runEvents (processEventSpec m) ⟨ps, defaultPost, t⟩ (postEvents p) =
      .ok ⟨ps ++ [sealedOfSpec m p], defaultPost, bodyLast p.body .Post⟩ := by
  have h2 : runEvents (processEventSpec m) ⟨ps, defaultPost, t⟩ (postEvents p) =
      runEvents (processEventSpec m) ⟨ps, { defaultPost with id := i }, .Post⟩
        (p.body.flatMap itemEvents ++ [.ok (.endElement "post")]) := by
    unfold postEvents
    rw [hid]
    simp [runEvents, processEventSpec]
  rw [h2, runEvents_append_ok _ _ _ _ _ (runEvents_body_spec m p.body ps _ _)]
  have hseal : p.body.foldl (applyItemSpec m) { defaultPost with id := i } = sealedOfSpec m p := by
    unfold sealedOfSpec
    rw [hid]
    rfl
  rw [hseal]
  simp [runEvents, processEventSpec]

theorem runEvents_doc (doc : List PostSrc) :
    ∀ ps t, (∀ p ∈ doc, p.id.isSome) →
      runEvents processEvent ⟨ps, defaultPost, t⟩ (docEvents doc) =
        .ok ⟨ps ++ (doc.map sealedOf).filter (fun q => q.extension.isSome),
             defaultPost, docLast doc t⟩ := by
  induction doc with
  | nil => intro ps t _; simp [docEvents, runEvents, docLast]
  | cons p rest ih =>
    intro ps t hids
    obtain ⟨i, hi⟩ := Option.isSome_iff_exists.mp (hids p (List.mem_cons_self p rest))
    unfold docEvents
    rw [List.flatMap_cons,
        runEvents_append_ok _ _ _ _ _ (runEvents_post p i hi ps t)]
    have hrest := ih (ps ++ (if (sealedOf p).extension.isSome then [sealedOf p] else []))
      (bodyLast p.body .Post) (fun q hq => hids q (List.mem_cons_of_mem p hq))
    unfold docEvents at hrest
    rw [hrest]
    simp only [List.map_cons, List.filter_cons]
    cases hx : (sealedOf p).extension.isSome <;>
      simp [hx, docLast, List.append_assoc]

theorem runEvents_doc_spec (m : List (String × Option String)) (doc : List PostSrc) :
    ∀ ps t, (∀ p ∈ doc, p.id.isSome) →
      runEvents (processEventSpec m) ⟨ps, defaultPost, t⟩ (docEvents doc) =
        .ok ⟨ps ++ doc.map (sealedOfSpec m), defaultPost, docLast doc t⟩ := by
  induction doc with
  | nil => intro ps t _; simp [docEvents, runEvents, docLast]
  | cons p rest ih =>
    intro ps t hids
    obtain ⟨i, hi⟩ := Option.isSome_iff_exists.mp (hids p (List.mem_cons_self p rest))
    unfold docEvents
    rw [List.flatMap_cons,
        runEvents_append_ok _ _ _ _ _ (runEvents_post_spec m p i hi ps t)]
    have hrest := ih (ps ++ [sealedOfSpec m p]) (bodyLast p.body .Post)
      (fun q hq => hids q (List.mem_cons_of_mem p hq))
    unfold docEvents at hrest
    rw [hrest]
    simp [docLast, List.append_assoc]

theorem runEvents_doc_missing (doc : List PostSrc) :
    ∀ ps t, (∃ p ∈ doc, p.id = none) →
      runEvents processEvent ⟨ps, defaultPost, t⟩ (docEvents doc) =
        .error .missingAttribute := by
  induction doc with
  | nil => intro ps t h; simp at h
  | cons p rest ih =>
    intro ps t h
    cases hid : p.id with
    | none =>
      unfold docEvents
      rw [List.flatMap_cons]
      apply runEvents_append_error
      unfold postEvents
      rw [hid]
      simp [runEvents, processEvent]
    | some i =>
      unfold docEvents
      rw [List.flatMap_cons,
          runEvents_append_ok _ _ _ _ _ (runEvents_post p i hid ps t)]
      have hrest : ∃ q ∈ rest, q.id = none := by
        obtain ⟨q, hq, hqid⟩ := h
        rcases List.mem_cons.mp hq with hqp | hqr
        · subst hqp; rw [hid] at hqid; exact Option.noConfusion hqid
        · exact ⟨q, hqr, hqid⟩
      have hh := ih (ps ++ (if (sealedOf p).extension.isSome then [sealedOf p] else []))
        (bodyLast p.body .Post) hrest
      unfold docEvents at hh
      exact hh

theorem applyItemSpec_media_type (m : List (String × Option String)) (cur : Post)
    (i : BodyItem) (hne : i ≠ .photoEl) :
    (applyItemSpec m cur i).media_type = cur.media_type := by
  cases i with
  | tagEl s =>
    cases hm : lookupMapping m s with
    | none => simp [applyItemSpec, hm]
    | some v => cases v <;> simp [applyItemSpec, hm]
  | photoEl => exact absurd rfl hne
  | photoUrlEl u =>
    cases hext : cur.extension with
    | none =>
      cases hs : splitLastDot u.data with
      | none => simp [applyItemSpec, hext, hs]
      | some pair => obtain ⟨b, a⟩ := pair; simp [applyItemSpec, hext, hs]
    | some e => simp [applyItemSpec, hext]
  | otherEl s => simp [applyItemSpec]

theorem mediaType_foldl (m : List (String × Option String)) (body : List BodyItem) :
    ∀ cur : Post, (body.foldl (applyItemSpec m) cur).media_type =
      if BodyItem.photoEl ∈ body then MediaType.Photo else cur.media_type := by
  induction body with
  | nil => intro cur; simp
  | cons i rest ih =>
    intro cur
    rw [List.foldl_cons, ih]
    by_cases hi : i = BodyItem.photoEl
    · subst hi
      have : (applyItemSpec m cur BodyItem.photoEl).media_type = .Photo := by
        simp [applyItemSpec]
      by_cases hr : BodyItem.photoEl ∈ rest <;> simp [hr, this]
    · rw [applyItemSpec_media_type m cur i hi]
      have hmem : (BodyItem.photoEl ∈ i :: rest) ↔ (BodyItem.photoEl ∈ rest) := by
        simp [List.mem_cons, Ne.symm hi]
      simp only [hmem]

theorem anyMatch_eq_any (files : List DirEntry) (id : String) :
    anyMatch files id = files.any (fun e => e.file_name.startsWith id) := by
  induction files with
  | nil => rfl
  | cons e rest ih =>
    rw [anyMatch, List.any_cons]
    cases hs : e.file_name.startsWith id <;> simp [hs, ih]

theorem all_not_eq_not_any (files : List DirEntry) (f : DirEntry → Bool) :
    files.all (fun e => !(f e)) = !(files.any f) := by
  induction files with
  | nil => rfl
  | cons e rest ih => simp [List.all_cons, List.any_cons, ih]

theorem loadLines_error_iff (file : String) : ∀ (lines : List String) (m : List (String × Option String)),
    loadMappingLines file lines m = .error (mappingFormatError file) ↔
      ∃ s ∈ lines, (splitComma s).length ≠ 2 := by
  intro lines
  induction lines with
  | nil =>
    intro m
    simp [loadMappingLines]
  | cons l rest ih =>
    intro m
    by_cases hb : (splitComma l).length = 2
    · have hlen : ((splitComma l).map trimString).length = 2 := by
        rw [List.length_map]; exact hb
      rw [loadMappingLines]
      simp only [hlen]
      simp [ih, hb]
    · have hlen : ¬ ((splitComma l).map trimString).length = 2 := by
        rw [List.length_map]; exact hb
      rw [loadMappingLines]
      simp only [hlen]
      simp [hb]

theorem loadLines_ok (file : String) : ∀ (lines : List String) (m : List (String × Option String)),
    (∀ s ∈ lines, (splitComma s).length = 2) →
      ∃ res, loadMappingLines file lines m = .ok res := by
  intro lines
  induction lines with
  | nil => intro m _; exact ⟨m, rfl⟩
  | cons l rest ih =>
    intro m h
    have hb : (splitComma l).length = 2 := h l (List.mem_cons_self l rest)
    have hlen : ((splitComma l).map trimString).length = 2 := by
      rw [List.length_map]; exact hb
    simp only [loadMappingLines]
    rw [if_neg (fun hc => hc hlen)]
    exact ih _ (fun s hs => h s (List.mem_cons_of_mem l hs))

/-- C1 (counterexample): it is not the case that every well-formed
document whose post elements all carry an `id` attribute parses to as many
records as it has post elements — a document with one post element with a
valid id but no media extension parses to zero records, because the `post`
end arm of `parse_posts` pushes the record only when `extension.is_some()`. -/
theorem claim_C1_counterexample :
    ¬ ∀ doc : List PostSrc, (∀ p ∈ doc, p.id.isSome) →
        ∃ l, parse_posts (docEvents doc) = .ok l ∧ l.length = doc.length := by
  intro h
  obtain ⟨l, hl, hlen⟩ := h [⟨some "1", []⟩] (by decide)
  have hres : parse_posts (docEvents [⟨some "1", []⟩]) = .ok [] := by decide
  rw [hres] at hl
  cases Except.ok.inj hl
  simp at hlen

/-- C1 (amended): for every well-formed document whose post elements all
carry an `id` attribute, `parse_posts` returns `Ok` of exactly those
sealed records whose `media_extension` is set, in document order; a post
element lacking a media extension is dropped at its end element. -/
theorem claim_C1 (doc : List PostSrc) (hids : ∀ p ∈ doc, p.id.isSome) :
    parse_posts (docEvents doc) =
      .ok ((doc.map sealedOf).filter (fun q => q.extension.isSome)) := by
  unfold parse_posts initState
  rw [runEvents_doc doc [] .Other hids]
  rfl

/-- C1 (witness): a two-post document in which only the first post has a
media extension parses to the filtered one-record sequence. -/
theorem claim_C1_witness :
    (∀ p ∈ [(⟨some "1", [BodyItem.photoUrlEl "x.jpg"]⟩ : PostSrc), ⟨some "2", []⟩], p.id.isSome) ∧
    parse_posts (docEvents [(⟨some "1", [BodyItem.photoUrlEl "x.jpg"]⟩ : PostSrc), ⟨some "2", []⟩]) =
      .ok (([(⟨some "1", [BodyItem.photoUrlEl "x.jpg"]⟩ : PostSrc), ⟨some "2", []⟩].map
              sealedOf).filter (fun q => q.extension.isSome)) :=
  ⟨by decide, claim_C1 _ (by decide)⟩

/-- C4: whenever some post element of the document lacks an `id`
attribute, `parse_posts` aborts with the missing-attribute error,
regardless of the position of that post element, and returns no result
sequence. -/
theorem claim_C4 (doc : List PostSrc) (h : ∃ p ∈ doc, p.id = none) :
    parse_posts (docEvents doc) = .error .missingAttribute := by
  unfold parse_posts initState
  rw [runEvents_doc_missing doc [] .Other h]

/-- C4 (witness): a document whose second post element lacks its `id`
fails with the missing-attribute error. -/
theorem claim_C4_witness :
    (∃ p ∈ [(⟨some "1", [BodyItem.tagEl "a"]⟩ : PostSrc), ⟨none, []⟩], p.id = none) ∧
    parse_posts (docEvents [(⟨some "1", [BodyItem.tagEl "a"]⟩ : PostSrc), ⟨none, []⟩]) =
      .error .missingAttribute :=
  ⟨by decide, claim_C4 _ (by decide)⟩

/-- C2: for every well-formed document with valid ids, the final parser
variant returns one sealed record per post element, and the `media_type`
of a sealed record is `Photo` exactly when at least one `photo` element occurred
inside its post element (otherwise it keeps the `Text` default). -/
theorem claim_C2 (m : List (String × Option String)) (doc : List PostSrc)
    (hids : ∀ p ∈ doc, p.id.isSome) :
    parse_posts_spec m (docEvents doc) = .ok (doc.map (sealedOfSpec m)) ∧
    ∀ p ∈ doc, ((sealedOfSpec m p).media_type = .Photo ↔ BodyItem.photoEl ∈ p.body) := by
  constructor
  · unfold parse_posts_spec initState
    rw [runEvents_doc_spec m doc [] .Other hids]
    rfl
  · intro p _
    unfold sealedOfSpec
    rw [mediaType_foldl]
    by_cases hp : BodyItem.photoEl ∈ p.body
    · simp [hp]
    · simp [hp, defaultPost]

/-- C2 (witness): a one-photo post seals to a `Photo` record, a tag-only
post to a `Text` one. -/
theorem claim_C2_witness :
    (∀ p ∈ [(⟨some "1", [BodyItem.photoEl]⟩ : PostSrc), ⟨some "2", [BodyItem.tagEl "t"]⟩],
        p.id.isSome) ∧
    parse_posts_spec [] (docEvents [(⟨some "1", [BodyItem.photoEl]⟩ : PostSrc),
        ⟨some "2", [BodyItem.tagEl "t"]⟩]) =
      .ok ([(⟨some "1", [BodyItem.photoEl]⟩ : PostSrc),
            ⟨some "2", [BodyItem.tagEl "t"]⟩].map (sealedOfSpec [])) ∧
    ((sealedOfSpec [] ⟨some "1", [BodyItem.photoEl]⟩).media_type = .Photo ↔
      BodyItem.photoEl ∈ [BodyItem.photoEl]) :=
  ⟨by decide,
   (claim_C2 [] [(⟨some "1", [BodyItem.photoEl]⟩ : PostSrc), ⟨some "2", [BodyItem.tagEl "t"]⟩]
      (by decide)).1,
   (claim_C2 [] [(⟨some "1", [BodyItem.photoEl]⟩ : PostSrc), ⟨some "2", [BodyItem.tagEl "t"]⟩]
      (by decide)).2 ⟨some "1", [BodyItem.photoEl]⟩ (List.mem_cons_self _ _)⟩

/-- C3: with a tag-mapping table supplied, tag text encountered by the
parser is renamed when the table maps it to a value, dropped when the
table maps it to no value, and passed through unchanged when the table has
no entry for it; with mapping `a` to `b` and `c` to drop, a post with tags
`a`, `c`, `d` seals with tags `b`, `d`. -/
theorem claim_C3 (m : List (String × Option String)) (raw v : String) (st : ParserState)
    (hlast : st.last_opened_tag = .Tag) :
    (lookupMapping m raw = some (some v) →
      processEventSpec m st (.ok (.characters raw)) =
        .ok { st with post := { st.post with tags := st.post.tags ++ [v] } }) ∧
    (lookupMapping m raw = some none →
      processEventSpec m st (.ok (.characters raw)) = .ok st) ∧
    (lookupMapping m raw = none →
      processEventSpec m st (.ok (.characters raw)) =
        .ok { st with post := { st.post with tags := st.post.tags ++ [raw] } }) ∧
    parse_posts_spec [("a", some "b"), ("c", none)]
        (docEvents [⟨some "7", [BodyItem.tagEl "a", BodyItem.tagEl "c", BodyItem.tagEl "d"]⟩]) =
      .ok [{ id := "7", url := "", media_type := .Text, tags := ["b", "d"],
             image_count := 0, extension := none }] := by
  refine ⟨?_, ?_, ?_, by decide⟩
  · intro hm
    simp [processEventSpec, hlast, hm]
  · intro hm
    simp [processEventSpec, hlast, hm]
  · intro hm
    simp [processEventSpec, hlast, hm]

/-- C3 (witness): the rename, drop and pass-through cases at the concrete
mapping of the claim. -/
theorem claim_C3_witness :
    ((⟨[], defaultPost, .Tag⟩ : ParserState).last_opened_tag = .Tag) ∧
    lookupMapping [("a", some "b"), ("c", none)] "a" = some (some "b") ∧
    lookupMapping [("a", some "b"), ("c", none)] "c" = some none ∧
    lookupMapping [("a", some "b"), ("c", none)] "d" = none ∧
    processEventSpec [("a", some "b"), ("c", none)] ⟨[], defaultPost, .Tag⟩
        (.ok (.characters "a")) =
      .ok ⟨[], { defaultPost with tags := [] ++ ["b"] }, .Tag⟩ ∧
    processEventSpec [("a", some "b"), ("c", none)] ⟨[], defaultPost, .Tag⟩
        (.ok (.characters "c")) = .ok ⟨[], defaultPost, .Tag⟩ ∧
    processEventSpec [("a", some "b"), ("c", none)] ⟨[], defaultPost, .Tag⟩
        (.ok (.characters "d")) =
      .ok ⟨[], { defaultPost with tags := [] ++ ["d"] }, .Tag⟩ :=
  ⟨rfl, by decide, by decide, by decide,
   (claim_C3 [("a", some "b"), ("c", none)] "a" "b" ⟨[], defaultPost, .Tag⟩ rfl).1 (by decide),
   (claim_C3 [("a", some "b"), ("c", none)] "c" "b" ⟨[], defaultPost, .Tag⟩ rfl).2.1 (by decide),
   (claim_C3 [("a", some "b"), ("c", none)] "d" "b" ⟨[], defaultPost, .Tag⟩ rfl).2.2.1 (by decide)⟩

/-- C5: for `photo-url` text reaching the parser: a text containing a dot,
seen while the extension is still unset, sets the extension to exactly the
dot-free substring after the final dot; a text with no dot leaves the
extension unset; and once the extension is set no later `photo-url` text
changes the record; first and later photo-urls of one post behave this way
as the concrete two-url example shows. -/
theorem claim_C5 (st : ParserState) (u : String)
    (hlast : st.last_opened_tag = .PhotoUrl) :
    (∀ b a, splitLastDot u.data = some (b, a) → u.data = b ++ '.' :: a ∧ '.' ∉ a) ∧
    (splitLastDot u.data = none ↔ '.' ∉ u.data) ∧
    (∀ b a, st.post.extension = none → splitLastDot u.data = some (b, a) →
      processEvent st (.ok (.characters u)) =
        .ok { st with post := { st.post with extension := some (String.mk a) } }) ∧
    (st.post.extension = none → splitLastDot u.data = none →
      processEvent st (.ok (.characters u)) = .ok st) ∧
    (∀ e, st.post.extension = some e → processEvent st (.ok (.characters u)) = .ok st) ∧
    sealedOf ⟨some "1", [BodyItem.photoUrlEl "http://x/image123.jpg",
                         BodyItem.photoUrlEl "http://x/other.png"]⟩ =
      { id := "1", url := "", media_type := .Text, tags := [], image_count := 0,
        extension := some "jpg" } := by
  refine ⟨splitLastDot_eq_some u.data, splitLastDot_eq_none_iff u.data,
          ?_, ?_, ?_, by decide⟩
  · intro b a hext hs
    simp [processEvent, hlast, hext, hs]
  · intro hext hs
    simp [processEvent, hlast, hext, hs]
  · intro e hext
    simp [processEvent, hlast, hext]

/-- C5 (witness): with nothing set yet, the text `a.b` sets extension `b`;
with extension `b` already set, the text `c.d` changes nothing. -/
theorem claim_C5_witness :
    ((⟨[], defaultPost, .PhotoUrl⟩ : ParserState).last_opened_tag = .PhotoUrl) ∧
    (defaultPost.extension = none) ∧
    splitLastDot "a.b".data = some (['a'], ['b']) ∧
    processEvent ⟨[], defaultPost, .PhotoUrl⟩ (.ok (.characters "a.b")) =
      .ok ⟨[], { defaultPost with extension := some (String.mk ['b']) }, .PhotoUrl⟩ ∧
    processEvent ⟨[], { defaultPost with extension := some "b" }, .PhotoUrl⟩
        (.ok (.characters "c.d")) =
      .ok ⟨[], { defaultPost with extension := some "b" }, .PhotoUrl⟩ :=
  ⟨rfl, rfl, by decide,
   (claim_C5 ⟨[], defaultPost, .PhotoUrl⟩ "a.b" rfl).2.2.1 ['a'] ['b'] rfl (by decide),
   (claim_C5 ⟨[], { defaultPost with extension := some "b" }, .PhotoUrl⟩ "c.d" rfl).2.2.2.2.1
     "b" rfl⟩

/-- C10: a `photo-url` text ending in a dot, seen while the extension is
unset, sets the extension to `some` of the empty string (not `none`), and
such an empty-string extension reaches the sealed records `parse_posts`
returns. -/
theorem claim_C10 (st : ParserState) (u : String) (l : List Char)
    (hlast : st.last_opened_tag = .PhotoUrl) (hext : st.post.extension = none)
    (hu : u.data = l ++ ['.']) :
    processEvent st (.ok (.characters u)) =
      .ok { st with post := { st.post with extension := some "" } } ∧
    parse_posts (docEvents [⟨some "1", [BodyItem.photoUrlEl "image."]⟩]) =
      .ok [{ id := "1", url := "", media_type := .Text, tags := [], image_count := 0,
             extension := some "" }] := by
  constructor
  · have hs : splitLastDot u.data = some (l, []) := by
      rw [hu]
      exact splitLastDot_append_dot l
    simp [processEvent, hlast, hext, hs]
  · decide

/-- C10 (witness): the text `image.` at an unset extension yields
`some ""`. -/
theorem claim_C10_witness :
    ((⟨[], defaultPost, .PhotoUrl⟩ : ParserState).last_opened_tag = .PhotoUrl) ∧
    (defaultPost.extension = none) ∧
    ("image.".data = "image".data ++ ['.']) ∧
    processEvent ⟨[], defaultPost, .PhotoUrl⟩ (.ok (.characters "image.")) =
      .ok ⟨[], { defaultPost with extension := some "" }, .PhotoUrl⟩ :=
  ⟨rfl, rfl, by decide,
   (claim_C10 ⟨[], defaultPost, .PhotoUrl⟩ "image." "image".data rfl rfl (by decide)).1⟩

/-- C6: the `TagCount` comparison orders a strictly higher count first,
breaks count ties by ascending tag, and counting then sorting the tags
`x, x, y, y, z` yields `(x,2), (y,2), (z,1)`. -/
theorem claim_C6 (a b : TagCount) :
    (b.count < a.count → TagCount.cmp a b = .lt) ∧
    (a.count < b.count → TagCount.cmp a b = .gt) ∧
    (a.count = b.count → TagCount.cmp a b = compare a.tag b.tag) ∧
    sortTagCounts (count_tags [{ defaultPost with tags := ["x", "x", "y", "y", "z"] }]) =
      [⟨"x", 2⟩, ⟨"y", 2⟩, ⟨"z", 1⟩] := by
  refine ⟨?_, ?_, ?_, by decide⟩
  · intro h
    have hc : compare b.count a.count = .lt := Nat.compare_eq_lt.mpr h
    simp [TagCount.cmp, hc]
  · intro h
    have hc : compare b.count a.count = .gt := Nat.compare_eq_gt.mpr h
    simp [TagCount.cmp, hc]
  · intro h
    have hc : compare b.count a.count = .eq := Nat.compare_eq_eq.mpr h.symm
    simp [TagCount.cmp, hc]

/-- C6 (witness): a count of 2 sorts strictly before a count of 1, and at
equal counts the tag comparison decides. -/
theorem claim_C6_witness :
    ((1 : Nat) < 2) ∧ TagCount.cmp ⟨"q", 2⟩ ⟨"p", 1⟩ = .lt ∧
    ((2 : Nat) = 2) ∧ TagCount.cmp ⟨"p", 2⟩ ⟨"q", 2⟩ = compare "p" "q" :=
  ⟨by decide, (claim_C6 ⟨"q", 2⟩ ⟨"p", 1⟩).1 (by decide),
   rfl, (claim_C6 ⟨"p", 2⟩ ⟨"q", 2⟩).2.2.1 rfl⟩

/-- C7: the missing-media report consists of exactly one line per post
whose `media_type` is `Photo` and whose id starts no file name in the
inventory, in post order; posts of any other media type contribute no
line, whatever the inventory holds (the function only returns lines, it
touches no files). -/
theorem claim_C7 (posts : List Post) (files : List DirEntry) :
    report_missing_media posts files =
      (posts.filter (fun p => p.media_type == MediaType.Photo &&
          files.all (fun e => !(e.file_name.startsWith p.id)))).map missingLine := by
  induction posts with
  | nil => rfl
  | cons p rest ih =>
    rw [report_missing_media, List.filter_cons]
    have hcond : (p.media_type == MediaType.Photo &&
        files.all (fun e => !(e.file_name.startsWith p.id))) =
          ((anyMatch files p.id = false ∧ p.media_type = .Photo) : Prop) := by
      rw [anyMatch_eq_any, all_not_eq_not_any]
      cases hany : files.any (fun e => e.file_name.startsWith p.id) <;>
        cases hmt : p.media_type <;> simp [hmt]
    by_cases hc : anyMatch files p.id = false ∧ p.media_type = .Photo
    · rw [if_pos hc]
      have : (p.media_type == MediaType.Photo &&
          files.all (fun e => !(e.file_name.startsWith p.id))) = true := by
        rw [hcond]; exact hc
      rw [if_pos this, List.map_cons, ← ih]
      rfl
    · rw [if_neg hc]
      have : ¬ ((p.media_type == MediaType.Photo &&
          files.all (fun e => !(e.file_name.startsWith p.id))) = true) := by
        rw [hcond]; exact hc
      rw [if_neg this, ← ih]
      rfl

/-- C8: loading the tag-remapping file fails with the format error naming
the file exactly when some line does not split into exactly two
comma-separated fields; when every line has exactly two fields loading
succeeds; and a two-field line whose trimmed second field is empty maps
its source tag to the drop entry. -/
theorem claim_C8 (file : String) (lines : List String) (l src : String) :
    (load_tag_mappings file lines = .error (mappingFormatError file) ↔
      ∃ s ∈ lines, (splitComma s).length ≠ 2) ∧
    ((∀ s ∈ lines, (splitComma s).length = 2) →
      ∃ res, load_tag_mappings file lines = .ok res) ∧
    ((splitComma l).map trimString = [src, ""] → src ≠ "" →
      load_tag_mappings file [l] = .ok [(src, none)] ∧
      lookupMapping [(src, none)] src = some none) := by
  refine ⟨loadLines_error_iff file lines [], loadLines_ok file lines [], ?_⟩
  intro hparts hsrc
  constructor
  · unfold load_tag_mappings
    simp only [loadMappingLines, hparts]
    simp [hsrc, insertMapping, loadMappingLines]
  · simp [lookupMapping, List.find?]

/-- C8 (witness): a well-formed two-field file loads, and the line
`c, ` (empty destination) maps `c` to the drop entry. -/
theorem claim_C8_witness :
    (∀ s ∈ ["a,b"], (splitComma s).length = 2) ∧
    (∃ res, load_tag_mappings "map.txt" ["a,b"] = .ok res) ∧
    ((splitComma "c, ").map trimString = ["c", ""]) ∧
    (load_tag_mappings "map.txt" ["c, "] = .ok [("c", none)] ∧
      lookupMapping [("c", none)] "c" = some none) :=
  ⟨by decide,
   (claim_C8 "map.txt" ["a,b"] "x" "y").2.1 (by decide),
   by decide,
   (claim_C8 "map.txt" [] "c, " "c").2.2 (by decide) (by decide)⟩

/-- C9: every entry of the file cache returned by a media directory scan
is a regular file whose path extension is not the side-file extension
`txt`, so no side-file from a previous run is a media candidate. -/
theorem claim_C9 (entries : List (Option DirEntry)) (e : DirEntry)
    (he : e ∈ build_file_cache entries) :
    e.is_file = true ∧ pathExtension e.file_name ≠ some "txt" := by
  unfold build_file_cache at he
  obtain ⟨_, hp⟩ := List.mem_filter.mp he
  rw [Bool.and_eq_true] at hp
  obtain ⟨hf, hx⟩ := hp
  refine ⟨hf, ?_⟩
  cases hext : pathExtension e.file_name with
  | none => exact fun hh => Option.noConfusion hh
  | some ext =>
    rw [hext] at hx
    simp only [decide_eq_true_eq] at hx
    intro hh
    exact hx (Option.some.inj hh)

/-- C9 (witness): a scan over a media file, a side-file, an unreadable
entry, an extensionless file and a directory keeps only non-`txt`
candidates, among them `a.jpg`. -/
theorem claim_C9_witness :
    ((⟨"a.jpg", true⟩ : DirEntry) ∈ build_file_cache
      [some ⟨"a.jpg", true⟩, some ⟨"b.txt", true⟩, none, some ⟨"c", true⟩,
       some ⟨"dir.jpg", false⟩]) ∧
    ((⟨"a.jpg", true⟩ : DirEntry).is_file = true ∧
      pathExtension (⟨"a.jpg", true⟩ : DirEntry).file_name ≠ some "txt") :=
  ⟨by decide,
   claim_C9 [some ⟨"a.jpg", true⟩, some ⟨"b.txt", true⟩, none, some ⟨"c", true⟩,
             some ⟨"dir.jpg", false⟩] ⟨"a.jpg", true⟩ (by decide)⟩
